import Mathlib

/-!
# Verification of the Synapse structured-document editing engine

A shallow embedding of the document model and the operations of the
Synapse editor core:

* the document tree (top-level blocks holding inline text runs with marks,
  addressed by ProseMirror-style absolute integer positions),
* the search engine `performSearch` and the match cursor
  (`goToNext` / `goToPrev`) of `FindReplace`,
* the replace operations `replaceOne` / `replaceAll`,
* the block commands `moveBlockUp` / `moveBlockDown` of `BlockHandle`,
* the decoration producers of `BlockHandle` and `TableOfContents`,
* the `WikiLink` input rule.

Strings are modelled as `List Char`.  JavaScript's `toLowerCase` is
modelled by `Char.toLower` (they agree on the ASCII range exercised by the
engine).  ProseMirror positions follow the source convention: each block
node contributes one opening and one closing token around its inline
content, an atom block contributes a single token, and a text node of
length `n` contributes `n` positions.
-/

namespace Synapse

abbrev Chars := List Char

/-- A mark on a text run (`bold` from the base schema, `wikiLink` with its
`noteTitle` attribute from the WikiLink extension). -/
inductive EMark where
  | bold : EMark
  | wikiLink (noteTitle : Chars) : EMark
  | highlight : EMark
deriving DecidableEq, Repr

/-- A text run: a text node together with its set of marks. -/
structure Run where
  text : Chars
  marks : List EMark
deriving DecidableEq, Repr

/-- A top-level block node: a paragraph or heading (textblocks holding
inline content) or an atom block with no inline content (standing for the
`tableOfContents` node of the source, which has `atom: true`). -/
inductive Block where
  | para (runs : List Run) : Block
  | heading (level : Nat) (runs : List Run) : Block
  | toc : Block
deriving DecidableEq, Repr

/-- A document is the root node's ordered sequence of top-level blocks. -/
abbrev Doc := List Block

/-- The inline content of a textblock; `none` for atom blocks. -/
def inlineOf : Block → Option (List Run)
  | .para rs => some rs
  | .heading _ rs => some rs
  | .toc => none

/-- `node.isTextblock` of ProseMirror for the block kinds of the model. -/
def isTextblock : Block → Bool
  | .para _ => true
  | .heading _ _ => true
  | .toc => false

/-- Rebuild a textblock with new inline content (used by replace steps). -/
def remake : Block → List Run → Block
  | .para _, rs => .para rs
  | .heading l _, rs => .heading l rs
  | .toc, _ => .toc

/-- Total number of characters of a run sequence. -/
def runsLen (rs : List Run) : Nat := (rs.map (fun r => r.text.length)).sum

/-- All characters of a run sequence, in order. -/
def runsChars (rs : List Run) : Chars := rs.flatMap (fun r => r.text)

/-- `node.nodeSize`: a textblock is its content length plus the two
boundary tokens; an atom block has size 1. -/
def nodeSize : Block → Nat
  | .para rs => 2 + runsLen rs
  | .heading _ rs => 2 + runsLen rs
  | .toc => 1

/-- `doc.content.size`: the sum of the top-level block sizes. -/
def docSize (d : Doc) : Nat := (d.map nodeSize).sum

/-- All document text characters in document order. -/
def docChars (d : Doc) : Chars :=
  d.flatMap (fun b => match inlineOf b with
    | some rs => runsChars rs
    | none => [])

/-- The document's total text length. -/
def docTextLength (d : Doc) : Nat := (docChars d).length

/-- The text runs of one textblock paired with their absolute start
positions, the first run starting at `p`. -/
def runsWithPos : List Run → Nat → List (Nat × Chars)
  | [], _ => []
  | r :: rest, p => (p, r.text) :: runsWithPos rest (p + r.text.length)

/-- `doc.descendants` restricted to text nodes: every text run of the
document paired with its absolute position, scanning blocks from
position `p`. -/
def textRunsAux : Doc → Nat → List (Nat × Chars)
  | [], _ => []
  | b :: bs, p =>
    (match inlineOf b with
      | some rs => runsWithPos rs (p + 1)
      | none => []) ++ textRunsAux bs (p + nodeSize b)

/-- Every text run of the document with its absolute position. -/
def textRuns (d : Doc) : List (Nat × Chars) := textRunsAux d 0

/-- Case folding applied by the search: the identity when `caseSensitive`,
otherwise `toLowerCase`. -/
def foldChar (caseSensitive : Bool) (c : Char) : Char :=
  if caseSensitive then c else c.toLower

/-- `caseSensitive ? s : s.toLowerCase()` of the source. -/
def foldStr (caseSensitive : Bool) (s : Chars) : Chars :=
  if caseSensitive then s else s.map Char.toLower

/-- A recorded match `{from, to}` (fields renamed `start`/`stop` because
`from` is reserved). -/
structure MatchPos where
  start : Nat
  stop : Nat
deriving DecidableEq, Repr

/-- The indices at which `needle` occurs in `hay` — exactly the indices
recorded by the source's scan `index = text.indexOf(searchString);
while (index !== -1) { ...; index = text.indexOf(searchString, index + 1) }`,
which visits every occurrence (including overlapping ones) in increasing
order. -/
def occs (needle hay : Chars) : List Nat :=
  (List.range hay.length).filter (fun i => needle.isPrefixOf (hay.drop i))

/-- `performSearch` of `FindReplace`: scan every text run in document
order, case-fold both sides unless `caseSensitive`, and record one
`{from, to}` per occurrence, with `to = from + searchTerm.length`.
An empty search term is rejected up front (`if (!editor || !searchTerm)`). -/
def performSearch (d : Doc) (term : Chars) (caseSensitive : Bool) :
    List MatchPos :=
  if term = [] then []
  else
    (textRuns d).flatMap (fun pt =>
      (occs (foldStr caseSensitive term) (foldStr caseSensitive pt.2)).map
        (fun i => ⟨pt.1 + i, pt.1 + i + term.length⟩))

/-- The matches `performSearch` records inside a single block, with the
block laid out at position 0 (its inline content starting at 1). -/
def blockMatches (b : Block) (term : Chars) (cs : Bool) : List MatchPos :=
  match inlineOf b with
  | some rs =>
    (runsWithPos rs 1).flatMap (fun pt =>
      (occs (foldStr cs term) (foldStr cs pt.2)).map
        (fun i => ⟨pt.1 + i, pt.1 + i + term.length⟩))
  | none => []

/-- `goToNext` of `FindReplace`:
`if (matchCount === 0) return; next = currentMatch >= matchCount ? 1 : currentMatch + 1`. -/
def goToNext (matchCount currentMatch : Nat) : Nat :=
  if matchCount = 0 then currentMatch
  else if matchCount ≤ currentMatch then 1
  else currentMatch + 1

/-- `goToPrev` of `FindReplace`:
`if (matchCount === 0) return; prev = currentMatch <= 1 ? matchCount : currentMatch - 1`. -/
def goToPrev (matchCount currentMatch : Nat) : Nat :=
  if matchCount = 0 then currentMatch
  else if currentMatch ≤ 1 then matchCount
  else currentMatch - 1

/-! ## Replace steps

`tr.replaceWith(from, to, node)` restricted to ranges lying inside the
inline content of a single textblock (the only ranges the engine produces:
search matches never cross a text-node boundary).  The inline content is
edited by splitting the run sequence at the range boundaries and joining
adjacent compatible text runs afterwards, as ProseMirror's fragment
operations do. -/

/-- The first `n` characters of a run sequence, keeping marks. -/
def runsTake : List Run → Nat → List Run
  | _, 0 => []
  | [], _ => []
  | r :: rest, n + 1 =>
    if n + 1 ≤ r.text.length then
      [⟨r.text.take (n + 1), r.marks⟩]
    else if r.text.length = 0 then runsTake rest (n + 1)
    else ⟨r.text, r.marks⟩ :: runsTake rest (n + 1 - r.text.length)

/-- The run sequence with its first `n` characters removed. -/
def runsDrop : List Run → Nat → List Run
  | rs, 0 => rs
  | [], _ => []
  | r :: rest, n + 1 =>
    if n + 1 < r.text.length then ⟨r.text.drop (n + 1), r.marks⟩ :: rest
    else runsDrop rest (n + 1 - r.text.length)

/-- Normalisation performed by ProseMirror's fragment operations: empty
text nodes disappear and adjacent text runs with identical mark sets are
joined. -/
def mergeRuns : List Run → List Run
  | [] => []
  | r :: rest =>
    if r.text = [] then mergeRuns rest
    else
      match mergeRuns rest with
      | [] => [r]
      | s :: tail =>
        if r.marks = s.marks then ⟨r.text ++ s.text, r.marks⟩ :: tail
        else r :: s :: tail

/-- Replace `len` characters starting at content offset `off` of a run
sequence by the runs `ins`; fails when the range exceeds the content. -/
def spliceRuns (rs : List Run) (off len : Nat) (ins : List Run) :
    Option (List Run) :=
  if off + len ≤ runsLen rs then
    some (mergeRuns (runsTake rs off ++ ins ++ runsDrop rs (off + len)))
  else none

/-- How a replace transaction can fail: `schema.text("")` raises
("Empty text nodes are not allowed" in prosemirror-model), and a range
that does not lie inside a single textblock's inline content is outside
the engine's contract. -/
inductive ReplaceErr where
  | emptyText : ReplaceErr
  | badRange : ReplaceErr
deriving DecidableEq, Repr

/-- `tr.replaceWith(from, to, ins)` on the blocks `d` laid out from
absolute position `p`: skip the blocks that end at or before `from`, then
splice inside the inline content of the block containing the range. -/
def replaceInBlocks : Doc → Nat → Nat → Nat → List Run →
    Except ReplaceErr Doc
  | [], _, _, _, _ => .error .badRange
  | b :: bs, p, f, t, ins =>
    if p + nodeSize b ≤ f then
      (replaceInBlocks bs (p + nodeSize b) f t ins).map (fun d => b :: d)
    else
      match inlineOf b with
      | none => .error .badRange
      | some rs =>
        if p + 1 ≤ f ∧ f ≤ t ∧ t ≤ p + 1 + runsLen rs then
          match spliceRuns rs (f - (p + 1)) (t - f) ins with
          | some rs' => .ok (remake b rs' :: bs)
          | none => .error .badRange
        else .error .badRange

/-- `tr.replaceWith(from, to, ins)` on a whole document. -/
def replaceWithDoc (d : Doc) (f t : Nat) (ins : List Run) :
    Except ReplaceErr Doc :=
  replaceInBlocks d 0 f t ins

/-- `schema.text(s)`: builds an unmarked text node; prosemirror-model
rejects the empty string ("Empty text nodes are not allowed"). -/
def schemaText (s : Chars) : Except ReplaceErr Run :=
  if s = [] then .error .emptyText else .ok ⟨s, []⟩

/-- One iteration of `replaceAll`'s loop body:
`tr.replaceWith(pos.from, pos.to, editor.state.schema.text(replaceTerm))`. -/
def replaceAllStep (d : Doc) (m : MatchPos) (repl : Chars) :
    Except ReplaceErr Doc :=
  match schemaText repl with
  | .error e => .error e
  | .ok r => replaceWithDoc d m.start m.stop [r]

/-- Apply `replaceAll`'s replacement steps in the given order, all inside
one transaction; the first failure aborts the whole transaction. -/
def applyRepls (repl : Chars) : Doc → List MatchPos → Except ReplaceErr Doc
  | d, [] => .ok d
  | d, m :: rest =>
    match replaceAllStep d m repl with
    | .ok d' => applyRepls repl d' rest
    | .error e => .error e

/-- `replaceAll` of `FindReplace` acting on the document: the recorded
match list is reversed (`[...matchPositionsRef.current].reverse()`) and
each match is replaced, all on one `tr`, dispatched once. -/
def replaceAllDoc (d : Doc) (ms : List MatchPos) (repl : Chars) :
    Except ReplaceErr Doc :=
  applyRepls repl d ms.reverse

/-- The list of steps `replaceAll` adds to its single transaction, as
`(from, to, replacement)` triples, in the order they are added. -/
def replaceAllSteps (ms : List MatchPos) (repl : Chars) :
    List (Nat × Nat × Chars) :=
  ms.reverse.map (fun m => (m.start, m.stop, repl))

/-- The `FindReplace` component state the claims talk about. -/
structure FindState where
  searchTerm : Chars
  matchCount : Nat
  currentMatch : Nat
deriving DecidableEq, Repr

/-- `replaceAll` including its state updates: after a successful dispatch
the source runs `setSearchTerm(''); setMatchCount(0); setCurrentMatch(0)`;
a throw inside the loop prevents them. -/
def replaceAllUI (d : Doc) (ms : List MatchPos) (repl : Chars) :
    Except ReplaceErr (Doc × FindState) :=
  (replaceAllDoc d ms repl).map (fun d' => (d', ⟨[], 0, 0⟩))

/-- `replaceOne` of `FindReplace`: a guarded no-op unless there is a
current match; otherwise the match's range is selected, deleted, and the
replacement inserted (`insertContent("")` inserts nothing, so an empty
replacement is a plain deletion). -/
def replaceOne (d : Doc) (ms : List MatchPos) (currentMatch : Nat)
    (repl : Chars) : Except ReplaceErr Doc :=
  if ms.length = 0 ∨ currentMatch = 0 then .ok d
  else
    match ms.get? (currentMatch - 1) with
    | none => .ok d
    | some m =>
      replaceWithDoc d m.start m.stop
        (if repl = [] then [] else [⟨repl, []⟩])

/-! ### Character-level views of the replace steps

Auxiliary functions used to reason about the replace machinery: the
character-level shadow of a splice, folds of steps given as
`(offset, length)` pairs, and the per-character substitution that
replace-all amounts to for a single-character search term. -/

/-- Character-level splice: replace `len` characters at offset `off`. -/
def spliceC (s : Chars) (off len : Nat) (ins : Chars) : Option Chars :=
  if off + len ≤ s.length then
    some (s.take off ++ ins ++ s.drop (off + len))
  else none

/-- Fold character-level splices (steps as `(offset, length)` pairs). -/
def applyC (ins : Chars) : Chars → List (Nat × Nat) → Option Chars
  | s, [] => some s
  | s, (off, len) :: rest =>
    match spliceC s off len ins with
    | some s' => applyC ins s' rest
    | none => none

/-- Fold run-level splices (steps as `(offset, length)` pairs). -/
def applyR (ins : List Run) : List Run → List (Nat × Nat) →
    Option (List Run)
  | rs, [] => some rs
  | rs, (off, len) :: rest =>
    match spliceRuns rs off len ins with
    | some rs' => applyR ins rs' rest
    | none => none

/-- Shift a recorded match by `n` positions towards the document end. -/
def shiftMatch (n : Nat) (m : MatchPos) : MatchPos :=
  ⟨n + m.start, n + m.stop⟩

/-- Shift a recorded match by `n` positions towards the document start. -/
def unshiftMatch (n : Nat) (m : MatchPos) : MatchPos :=
  ⟨m.start - n, m.stop - n⟩

/-- Replace-all for a single-character term, described denotationally:
every character that case-folds to `fc` is replaced by `repl`. -/
def substAll (g : Char → Char) (fc : Char) (repl : Chars) (s : Chars) :
    Chars :=
  s.flatMap (fun x => if g x = fc then repl else [x])

/-! ## Block commands (`BlockHandle`) -/

/-- `$from.before(1)` for the block at child index `k`: the sum of the
sizes of the preceding top-level blocks. -/
def blockStart (d : Doc) (k : Nat) : Nat := ((d.take k).map nodeSize).sum

/-- Resolve a selection position to the child index of the top-level
block it lies strictly inside (a position of depth ≥ 1); positions at
top-level block boundaries resolve to depth 0 and yield `none`. -/
def topBlockIndex : Doc → Nat → Option Nat
  | [], _ => none
  | b :: bs, f =>
    if f < nodeSize b then (if 0 < f then some 0 else none)
    else (topBlockIndex bs (f - nodeSize b)).map (fun k => k + 1)

/-- The document after the source's
`slice(blockPos, endOfBlock); delete(blockPos, endOfBlock);
insert(prevStart, slice.content)` sequence: the block at index `k`
exchanged with its previous sibling. -/
def moveUpAt (d : Doc) (k : Nat) : Doc :=
  d.take (k - 1) ++ (d.get? k).toList ++ (d.get? (k - 1)).toList ++
    d.drop (k + 1)

/-- The document after `moveBlockDown`'s delete/insert pair: the next
sibling moved in front of the block at index `k`. -/
def moveDownAt (d : Doc) (k : Nat) : Doc :=
  d.take k ++ (d.get? (k + 1)).toList ++ (d.get? k).toList ++
    d.drop (k + 2)

/-- `moveBlockUp`: resolves the selection's enclosing top-level block;
returns failure (leaving the document unchanged) when the block starts at
position 0 / has child index 0, otherwise swaps it with its previous
sibling in a single transaction. -/
def moveBlockUp (d : Doc) (selFrom : Nat) : Bool × Doc :=
  match topBlockIndex d selFrom with
  | none => (false, d)
  | some k =>
    if blockStart d k = 0 ∨ k = 0 then (false, d)
    else (true, moveUpAt d k)

/-- `moveBlockDown`: returns failure when the enclosing block ends at or
beyond `doc.content.size` (i.e. it is the last top-level block), otherwise
swaps it with its next sibling in a single transaction. -/
def moveBlockDown (d : Doc) (selFrom : Nat) : Bool × Doc :=
  match topBlockIndex d selFrom with
  | none => (false, d)
  | some k =>
    match d.get? k with
    | none => (false, d)
    | some b =>
      if docSize d ≤ blockStart d k + nodeSize b then (false, d)
      else
        match d.get? (k + 1) with
        | none => (false, d)
        | some _ => (true, moveDownAt d k)

/-! ## Decorations -/

/-- A block-handle widget decoration: its position and whether its block
is marked active. -/
structure BHDeco where
  pos : Nat
  active : Bool
deriving DecidableEq, Repr

/-- The decoration producer of the `BlockHandle` plugin: `doc.forEach`
over the top-level blocks, emitting one widget per block satisfying
`node.isBlock && node.isTextblock`, active when
`pos <= $from.pos && $from.pos <= pos + node.nodeSize`. -/
def blockHandleAux : Doc → Nat → Nat → List BHDeco
  | [], _, _ => []
  | b :: bs, p, f =>
    (if isTextblock b then
      [⟨p, decide (p ≤ f ∧ f ≤ p + nodeSize b)⟩]
    else []) ++ blockHandleAux bs (p + nodeSize b) f

/-- Block-handle decorations for a document and selection position. -/
def blockHandleDecorations (d : Doc) (selFrom : Nat) : List BHDeco :=
  blockHandleAux d 0 selFrom

/-- A heading item collected by the `TableOfContents` plugin:
`{level, text, pos}`. -/
structure HeadingItem where
  level : Nat
  text : Chars
  pos : Nat
deriving DecidableEq, Repr

/-- Collect every heading node with its level, text content and absolute
position, in document order. -/
def collectHeadingsAux : Doc → Nat → List HeadingItem
  | [], _ => []
  | b :: bs, p =>
    (match b with
      | .heading l rs => [⟨l, runsChars rs, p⟩]
      | _ => []) ++ collectHeadingsAux bs (p + nodeSize b)

/-- A node decoration emitted on a `tableOfContents` node: its range and
the heading list rendered into it. -/
structure TocDeco where
  start : Nat
  stop : Nat
  headings : List HeadingItem
deriving DecidableEq, Repr

/-- The decoration producer of the `TableOfContents` plugin: one node
decoration per `tableOfContents` node, spanning the node and carrying the
heading list collected from the whole document. -/
def tocDecorationsAux (hs : List HeadingItem) : Doc → Nat → List TocDeco
  | [], _ => []
  | b :: bs, p =>
    (match b with
      | .toc => [⟨p, p + nodeSize Block.toc, hs⟩]
      | _ => []) ++ tocDecorationsAux hs bs (p + nodeSize b)

/-- Table-of-contents decorations for a document. -/
def tocDecorations (d : Doc) : List TocDeco :=
  tocDecorationsAux (collectHeadingsAux d 0) d 0

/-- The editor state visible to the decoration producers, together with
the transient `FindReplace` UI fields that must not influence them. -/
structure EditorState where
  doc : Doc
  selFrom : Nat
  searchTerm : Chars
  matchPositions : List MatchPos
  currentMatch : Nat
deriving Repr

/-- The `BlockHandle` plugin's `decorations(state)` callback: reads only
`state.doc` and `state.selection.$from.pos`. -/
def blockHandleCompute (s : EditorState) : List BHDeco :=
  blockHandleDecorations s.doc s.selFrom

/-- The `TableOfContents` plugin's `decorations(state)` callback: reads
only `state.doc`. -/
def tocCompute (s : EditorState) : List TocDeco :=
  tocDecorations s.doc

/-! ## The WikiLink input rule -/

/-- Attempt of the pattern `\[\[([^\]]+)\]\]$` at the start of `s`: the
group is the longest run of non-`]` characters after `[[`, and the match
must end exactly at the end of the typed text. -/
def wikiMatchAt (s : Chars) : Option Chars :=
  match s with
  | '[' :: '[' :: rest =>
    let t := rest.takeWhile (fun c => c ≠ ']')
    if t ≠ [] ∧ rest.drop t.length = [']', ']'] then some t else none
  | _ => none

/-- The leftmost match of `\[\[([^\]]+)\]\]$` in `s`, returned as the
text before the match together with the captured title. -/
def wikiFind : Chars → Option (Chars × Chars)
  | [] => none
  | c :: cs =>
    match wikiMatchAt (c :: cs) with
    | some t => some ([], t)
    | none => (wikiFind cs).map (fun pt => (c :: pt.1, pt.2))

/-- The WikiLink input rule applied to a paragraph holding the typed text
with the cursor at its end: on a match, the rule's handler runs
`tr.replaceWith(range.from, range.to,
state.schema.text(title, [schema.marks.wikiLink.create({noteTitle: title})]))`
over exactly the matched span. -/
def wikiLinkInputRule (typed : Chars) : Option Doc :=
  match wikiFind typed with
  | none => none
  | some (pre, title) =>
    match
      replaceWithDoc [Block.para [⟨typed, []⟩]] (1 + pre.length)
        (1 + typed.length) [⟨title, [EMark.wikiLink title]⟩] with
    | .ok d => some d
    | .error _ => none

/-! ## Basic lemmas about the search scan -/

theorem foldStr_length (cs : Bool) (s : Chars) :
    (foldStr cs s).length = s.length := by
  cases cs <;> simp [foldStr]

theorem mem_occs {needle hay : Chars} {i : Nat} :
    i ∈ occs needle hay ↔
      i < hay.length ∧ needle.isPrefixOf (hay.drop i) = true := by
  simp [occs, List.mem_filter, List.mem_range]

theorem occ_bound {needle hay : Chars} {i : Nat} (h : i ∈ occs needle hay) :
    i + needle.length ≤ hay.length := by
  obtain ⟨hi, hp⟩ := mem_occs.mp h
  have hle := (List.isPrefixOf_iff_prefix.mp hp).length_le
  simp only [List.length_drop] at hle
  omega

theorem mem_performSearch {d : Doc} {term : Chars} {cs : Bool}
    {m : MatchPos} :
    m ∈ performSearch d term cs ↔
      term ≠ [] ∧ ∃ e ∈ textRuns d,
        ∃ i ∈ occs (foldStr cs term) (foldStr cs e.2),
          m = ⟨e.1 + i, e.1 + i + term.length⟩ := by
  unfold performSearch
  split
  · simp [*]
  · simp only [List.mem_flatMap, List.mem_map]
    constructor
    · rintro ⟨e, he, i, hi, rfl⟩
      exact ⟨by assumption, e, he, i, hi, rfl⟩
    · rintro ⟨-, e, he, i, hi, rfl⟩
      exact ⟨e, he, i, hi, rfl⟩

/-- **C10**: every `{from, to}` range reported by `performSearch` lies
entirely within a single text run: the scan runs per text node, so an
occurrence of the term spanning the boundary between two adjacent text
runs is never reported. -/
theorem search_within_single_run (d : Doc) (term : Chars) (cs : Bool) :
    ∀ m ∈ performSearch d term cs, ∃ e ∈ textRuns d,
      e.1 ≤ m.start ∧ m.stop ≤ e.1 + e.2.length := by
  intro m hm
  obtain ⟨-, e, he, i, hi, rfl⟩ := mem_performSearch.mp hm
  refine ⟨e, he, Nat.le_add_right _ _, ?_⟩
  have hb := occ_bound hi
  rw [foldStr_length, foldStr_length] at hb
  simp only []
  omega

/-- Witness for C10 at a concrete input: in a paragraph made of the runs
`"fo"` (bold) and `"o"`, the text `"foo"` spans the run boundary; applying
the theorem to the document `⟨para ["aaa"]⟩` and the reported match
`{from := 1, to := 3}` of `"aa"` produces the containing run. -/
theorem search_within_single_run_witness :
    ∃ e ∈ textRuns [Block.para [⟨['a', 'a', 'a'], []⟩]],
      e.1 ≤ 1 ∧ 3 ≤ e.1 + e.2.length :=
  search_within_single_run [Block.para [⟨['a', 'a', 'a'], []⟩]]
    ['a', 'a'] true ⟨1, 3⟩ (by decide)

/-- **C4**: searching `"Hello"` in a document whose text is
`"hello Hello HELLO"` returns 3 matches with `caseSensitive = false` and
exactly 1 match with `caseSensitive = true`. -/
theorem search_case_sensitivity :
    (performSearch [Block.para [⟨"hello Hello HELLO".toList, []⟩]]
      "Hello".toList false).length = 3 ∧
    (performSearch [Block.para [⟨"hello Hello HELLO".toList, []⟩]]
      "Hello".toList true).length = 1 := by
  decide

/-- **C7**: the match cursor is 1-based and `next`/`prev` wrap cyclically:
with `matchCount > 0`, `goToNext` at `currentMatch = matchCount` yields 1,
`goToPrev` at `currentMatch = 1` yields `matchCount`, otherwise they step
by one; with `matchCount = 0` both leave the cursor unchanged. -/
theorem match_cursor_wraps (mc cur : Nat) :
    (mc = 0 → goToNext mc cur = cur ∧ goToPrev mc cur = cur) ∧
    (0 < mc → cur = mc → goToNext mc cur = 1) ∧
    (0 < mc → cur = 1 → goToPrev mc cur = mc) ∧
    (0 < mc → 1 ≤ cur → cur < mc → goToNext mc cur = cur + 1) ∧
    (0 < mc → 1 < cur → cur ≤ mc → goToPrev mc cur = cur - 1) := by
  unfold goToNext goToPrev
  refine ⟨?_, ?_, ?_, ?_, ?_⟩ <;> intros <;> split_ifs <;> omega

/-- Witness for C7: the wrap-around cases at `matchCount = 3`. -/
theorem match_cursor_wraps_witness :
    goToNext 3 3 = 1 ∧ goToPrev 3 1 = 3 :=
  ⟨(match_cursor_wraps 3 3).2.1 (by decide) rfl,
   (match_cursor_wraps 3 1).2.2.1 (by decide) rfl⟩

/-- **C5**: typing `[[Project Plan]]` fires the wiki-link input rule: the
matched span is replaced by a single text run `"Project Plan"` carrying a
`wikiLink` mark with `noteTitle = "Project Plan"`, and no bracket
character from the pattern remains in the document. -/
theorem wikiLink_input_rule_spec :
    wikiLinkInputRule "[[Project Plan]]".toList =
      some [Block.para [⟨"Project Plan".toList,
        [EMark.wikiLink "Project Plan".toList]⟩]] ∧
    docChars ((wikiLinkInputRule "[[Project Plan]]".toList).getD []) =
      "Project Plan".toList ∧
    '[' ∉ "Project Plan".toList ∧ ']' ∉ "Project Plan".toList := by
  decide

/-! ## Block move commands at boundaries (C2) -/

theorem topBlockIndex_lt_length {d : Doc} {f k : Nat}
    (h : topBlockIndex d f = some k) : k < d.length := by
  induction d generalizing f k with
  | nil => simp [topBlockIndex] at h
  | cons b bs ih =>
    unfold topBlockIndex at h
    split at h
    · split at h
      · have hk : k = 0 := by simpa using h.symm
        subst hk
        simp
      · simp at h
    · obtain ⟨k', hk', rfl⟩ := Option.map_eq_some'.mp h
      have := ih hk'
      simp only [List.length_cons]
      omega

theorem blockStart_succ {d : Doc} {k : Nat} {b : Block}
    (h : d.get? k = some b) :
    blockStart d (k + 1) = blockStart d k + nodeSize b := by
  have h' : d[k]? = some b := by rw [← List.get?_eq_getElem?]; exact h
  unfold blockStart
  rw [List.take_succ, List.map_append, List.sum_append]
  simp [h']

theorem blockStart_length (d : Doc) : blockStart d d.length = docSize d := by
  simp [blockStart, docSize, List.take_length]

/-- **C2**: `moveBlockUp` with the selection inside the first top-level
block (child index 0) returns failure and leaves the document unchanged;
`moveBlockDown` with the selection inside the last top-level block does
the same. -/
theorem moveBlock_boundary_noop (d : Doc) (f k : Nat) :
    (topBlockIndex d f = some 0 → moveBlockUp d f = (false, d)) ∧
    (topBlockIndex d f = some k → k + 1 = d.length →
      moveBlockDown d f = (false, d)) := by
  constructor
  · intro h
    unfold moveBlockUp
    rw [h]
    simp [blockStart]
  · intro h hlast
    have hk := topBlockIndex_lt_length h
    obtain ⟨b, hb⟩ : ∃ b, d.get? k = some b := ⟨_, List.get?_eq_get hk⟩
    have hsz : docSize d ≤ blockStart d k + nodeSize b := by
      rw [← blockStart_succ hb, hlast, blockStart_length]
    have hb' : d[k]? = some b := by rw [← List.get?_eq_getElem?]; exact hb
    unfold moveBlockDown
    rw [h]
    simp [hb', hsz]

/-- Witness for C2: a two-paragraph document; position 1 sits inside the
first block, position 4 inside the last. -/
theorem moveBlock_boundary_noop_witness :
    moveBlockUp
      [Block.para [⟨['a'], []⟩], Block.para [⟨['b'], []⟩]] 1 =
      (false, [Block.para [⟨['a'], []⟩], Block.para [⟨['b'], []⟩]]) ∧
    moveBlockDown
      [Block.para [⟨['a'], []⟩], Block.para [⟨['b'], []⟩]] 4 =
      (false, [Block.para [⟨['a'], []⟩], Block.para [⟨['b'], []⟩]]) :=
  ⟨(moveBlock_boundary_noop _ 1 0).1 (by decide),
   (moveBlock_boundary_noop _ 4 1).2 (by decide) (by decide)⟩

/-! ## Block-handle decorations (C6) -/

theorem blockStart_zero (d : Doc) : blockStart d 0 = 0 := rfl

theorem blockStart_cons_succ (b : Block) (bs : Doc) (j : Nat) :
    blockStart (b :: bs) (j + 1) = nodeSize b + blockStart bs j := by
  simp [blockStart, List.take_succ_cons]

/-- **C6 counterexample**: the decoration producer tests
`node.isBlock && node.isTextblock`, so a top-level block that is not a
textblock (here the atom `tableOfContents` block) gets no widget
decoration at all, refuting "one widget per top-level block". -/
theorem blockHandle_not_every_block_cex :
    ([Block.toc] : Doc).length = 1 ∧
    blockHandleDecorations [Block.toc] 0 = [] := by
  decide

theorem blockHandleAux_active_after (bs : Doc) (p f : Nat) (h : f < p) :
    (blockHandleAux bs p f).filter (fun x => x.active) = [] := by
  induction bs generalizing p with
  | nil => simp [blockHandleAux]
  | cons b bs ih =>
    have hnot : ¬ (p ≤ f ∧ f ≤ p + nodeSize b) := by omega
    unfold blockHandleAux
    rw [List.filter_append, ih (p + nodeSize b) (by omega)]
    cases htb : isTextblock b <;> simp [hnot]

theorem blockHandleAux_active_inside (d : Doc) (p f k : Nat) (b : Block)
    (hget : d.get? k = some b) (htb : isTextblock b = true)
    (h1 : p + blockStart d k < f)
    (h2 : f < p + blockStart d k + nodeSize b) :
    (blockHandleAux d p f).filter (fun x => x.active) =
      [⟨p + blockStart d k, true⟩] := by
  induction d generalizing p k with
  | nil => simp [List.get?] at hget
  | cons b0 bs ih =>
    cases k with
    | zero =>
      have hb : b0 = b := by simpa [List.get?] using hget
      subst hb
      rw [blockStart_zero] at h1 h2
      have hyes : p ≤ f ∧ f ≤ p + nodeSize b0 := by omega
      unfold blockHandleAux
      rw [List.filter_append,
        blockHandleAux_active_after bs (p + nodeSize b0) f (by omega)]
      simp [htb, hyes, blockStart_zero]
    | succ j =>
      have hget' : bs.get? j = some b := by simpa [List.get?] using hget
      rw [blockStart_cons_succ] at h1 h2
      have hnot : ¬ (p ≤ f ∧ f ≤ p + nodeSize b0) := by omega
      unfold blockHandleAux
      rw [List.filter_append]
      have := ih (p + nodeSize b0) j hget' (by omega) (by omega)
      rw [this]
      cases htb0 : isTextblock b0 <;>
        simp [hnot, Nat.add_assoc, blockStart_cons_succ]

theorem blockHandleAux_length (bs : Doc) (p f : Nat) :
    (blockHandleAux bs p f).length = (bs.filter isTextblock).length := by
  induction bs generalizing p with
  | nil => simp [blockHandleAux]
  | cons b bs ih =>
    unfold blockHandleAux
    cases htb : isTextblock b <;> simp [List.filter_cons, htb, ih]

theorem blockHandleAux_pos (bs : Doc) (p f : Nat) :
    ∀ deco ∈ blockHandleAux bs p f, ∃ j b, bs.get? j = some b ∧
      isTextblock b = true ∧ deco.pos = p + blockStart bs j := by
  induction bs generalizing p with
  | nil => simp [blockHandleAux]
  | cons b bs ih =>
    intro deco hdeco
    unfold blockHandleAux at hdeco
    rw [List.mem_append] at hdeco
    rcases hdeco with hh | ht
    · cases htb : isTextblock b
      · simp [htb] at hh
      · simp only [htb, if_pos, List.mem_singleton] at hh
        exact ⟨0, b, by simp [List.get?], htb,
          by simp [hh, blockStart_zero]⟩
    · obtain ⟨j, b', hget, htb, hpos⟩ := ih (p + nodeSize b) deco ht
      exact ⟨j + 1, b', by simpa [List.get?] using hget, htb,
        by rw [hpos, blockStart_cons_succ]; omega⟩

/-- **C6 amended**: the block-handle decoration producer emits one widget
decoration per top-level *textblock*, each positioned at its block's
start; a handle is flagged active exactly when
`pos ≤ $from.pos ≤ pos + nodeSize`, so when the selection lies strictly
inside a top-level textblock, exactly that block's handle is active. -/
theorem blockHandle_decorations_spec (d : Doc) (f k : Nat) (b : Block)
    (hget : d.get? k = some b) (htb : isTextblock b = true)
    (h1 : blockStart d k < f) (h2 : f < blockStart d k + nodeSize b) :
    (blockHandleDecorations d f).length = (d.filter isTextblock).length ∧
    (∀ deco ∈ blockHandleDecorations d f, ∃ j b', d.get? j = some b' ∧
      isTextblock b' = true ∧ deco.pos = blockStart d j) ∧
    (blockHandleDecorations d f).filter (fun x => x.active) =
      [⟨blockStart d k, true⟩] := by
  refine ⟨blockHandleAux_length d 0 f, ?_, ?_⟩
  · intro deco hdeco
    obtain ⟨j, b', hg, ht, hp⟩ := blockHandleAux_pos d 0 f deco hdeco
    exact ⟨j, b', hg, ht, by simpa using hp⟩
  · have := blockHandleAux_active_inside d 0 f k b hget htb
      (by simpa using h1) (by simpa using h2)
    simpa using this

/-- Witness for the amended C6 at a concrete input: a paragraph followed
by an atom block, selection at position 1 (inside the paragraph). -/
theorem blockHandle_decorations_spec_witness :
    (blockHandleDecorations [Block.para [⟨['a'], []⟩], Block.toc] 1).filter
      (fun x => x.active) =
      [⟨blockStart [Block.para [⟨['a'], []⟩], Block.toc] 0, true⟩] :=
  (blockHandle_decorations_spec [Block.para [⟨['a'], []⟩], Block.toc] 1 0
    (Block.para [⟨['a'], []⟩]) (by decide) (by decide) (by decide)
    (by decide)).2.2

/-! ## Decoration purity (C8) -/

/-- **C8**: the decoration producers are pure functions of the document
and the transient UI state they declare: computing the block-handle or
table-of-contents decorations from two editor states that agree on the
document and the selection yields identical decoration lists (same ranges
and kinds), whatever the remaining transient fields hold; nothing about
the computation touches the document. -/
theorem decoration_compute_deterministic (s t : EditorState)
    (hdoc : s.doc = t.doc) (hsel : s.selFrom = t.selFrom) :
    blockHandleCompute s = blockHandleCompute t ∧
    tocCompute s = tocCompute t := by
  unfold blockHandleCompute tocCompute
  rw [hdoc, hsel]
  exact ⟨rfl, rfl⟩

/-- Witness for C8: two states sharing document and selection but with
different search term, match list and cursor. -/
theorem decoration_compute_deterministic_witness :
    blockHandleCompute
      ⟨[Block.para [⟨['a'], []⟩]], 1, ['x'], [⟨1, 2⟩], 5⟩ =
    blockHandleCompute
      ⟨[Block.para [⟨['a'], []⟩]], 1, [], [], 0⟩ :=
  (decoration_compute_deterministic _ _ rfl rfl).1

/-! ## Search ordering and completeness (C3) -/

theorem runsLen_cons (r : Run) (rest : List Run) :
    runsLen (r :: rest) = r.text.length + runsLen rest := by
  simp [runsLen]

theorem inlineOf_nodeSize {b : Block} {rs : List Run}
    (h : inlineOf b = some rs) : nodeSize b = 2 + runsLen rs := by
  cases b <;> simp [inlineOf] at h <;> simp [nodeSize, h]

theorem runsWithPos_bound : ∀ (rs : List Run) (p : Nat),
    ∀ e ∈ runsWithPos rs p, p ≤ e.1 ∧ e.1 + e.2.length ≤ p + runsLen rs := by
  intro rs
  induction rs with
  | nil => simp [runsWithPos]
  | cons r rest ih =>
    intro p e he
    rw [runsWithPos, List.mem_cons] at he
    rcases he with rfl | he
    · simp [runsLen_cons]
    · have := ih (p + r.text.length) e he
      rw [runsLen_cons]
      omega

theorem textRunsAux_bound : ∀ (d : Doc) (p : Nat),
    ∀ e ∈ textRunsAux d p, p ≤ e.1 ∧ e.1 + e.2.length ≤ p + docSize d := by
  intro d
  induction d with
  | nil => simp [textRunsAux]
  | cons b bs ih =>
    intro p e he
    rw [textRunsAux, List.mem_append] at he
    have hsize : docSize (b :: bs) = nodeSize b + docSize bs := by
      simp [docSize]
    rcases he with he | he
    · rcases hin : inlineOf b with - | rs
      · simp [hin] at he
      · rw [hin] at he
        have := runsWithPos_bound rs (p + 1) e he
        have := inlineOf_nodeSize hin
        omega
    · have := ih (p + nodeSize b) e he
      omega

theorem runsWithPos_spacing : ∀ (rs : List Run) (p : Nat),
    (runsWithPos rs p).Pairwise (fun a b => a.1 + a.2.length ≤ b.1) := by
  intro rs
  induction rs with
  | nil => simp [runsWithPos]
  | cons r rest ih =>
    intro p
    rw [runsWithPos, List.pairwise_cons]
    refine ⟨fun e he => ?_, ih _⟩
    have := runsWithPos_bound rest (p + r.text.length) e he
    simp
    omega

theorem textRunsAux_spacing : ∀ (d : Doc) (p : Nat),
    (textRunsAux d p).Pairwise (fun a b => a.1 + a.2.length ≤ b.1) := by
  intro d
  induction d with
  | nil => simp [textRunsAux]
  | cons b bs ih =>
    intro p
    rw [textRunsAux, List.pairwise_append]
    refine ⟨?_, ih _, ?_⟩
    · rcases hin : inlineOf b with - | rs
      · simp
      · exact runsWithPos_spacing rs (p + 1)
    · intro a ha e he
      have hbound : a.1 + a.2.length ≤ p + nodeSize b := by
        rcases hin : inlineOf b with - | rs
        · simp [hin] at ha
        · rw [hin] at ha
          have := runsWithPos_bound rs (p + 1) a ha
          have := inlineOf_nodeSize hin
          omega
      have := (textRunsAux_bound bs (p + nodeSize b) e he).1
      omega

theorem occs_sorted (needle hay : Chars) :
    (occs needle hay).Pairwise (· < ·) :=
  (List.pairwise_lt_range hay.length).filter _

theorem occs_lt_length {needle hay : Chars} {i : Nat}
    (h : i ∈ occs needle hay) : i < hay.length :=
  (mem_occs.mp h).1

theorem performSearch_sorted (d : Doc) (term : Chars) (cs : Bool) :
    (performSearch d term cs).Pairwise (fun a b => a.start < b.start) := by
  unfold performSearch
  split
  · simp
  · rw [List.flatMap_def, List.pairwise_flatten]
    constructor
    · intro l hl
      rw [List.mem_map] at hl
      obtain ⟨e, -, rfl⟩ := hl
      rw [List.pairwise_map]
      exact (occs_sorted _ _).imp (by intro i j hij; simpa using hij)
    · rw [List.pairwise_map]
      have hsp := textRunsAux_spacing d 0
      refine hsp.imp ?_
      intro e1 e2 h12 x hx y hy
      rw [List.mem_map] at hx hy
      obtain ⟨i, hi, rfl⟩ := hx
      obtain ⟨j, hj, rfl⟩ := hy
      have h1 : i < e1.2.length := by
        have := occs_lt_length hi
        rwa [foldStr_length] at this
      simp only []
      omega

/-- **C3**: `performSearch` returns the matches in document order
(strictly increasing `from`), and reports *every* occurrence of the term
inside a text run — including overlapping ones, since the scan resumes
one character after each recorded match; in particular searching `"aa"`
in `"aaa"` reports 2 matches. -/
theorem search_ordered_and_complete (d : Doc) (term : Chars) (cs : Bool) :
    (performSearch d term cs).Pairwise (fun a b => a.start < b.start) ∧
    (term ≠ [] → ∀ e ∈ textRuns d, ∀ i : Nat, i < e.2.length →
      (foldStr cs term).isPrefixOf ((foldStr cs e.2).drop i) = true →
      (⟨e.1 + i, e.1 + i + term.length⟩ : MatchPos) ∈
        performSearch d term cs) ∧
    performSearch [Block.para [⟨['a', 'a', 'a'], []⟩]] ['a', 'a'] true =
      [⟨1, 3⟩, ⟨2, 4⟩] := by
  refine ⟨performSearch_sorted d term cs, ?_, by decide⟩
  intro hne e he i hilt hpre
  refine mem_performSearch.mpr ⟨hne, e, he, i, ?_, rfl⟩
  refine mem_occs.mpr ⟨?_, hpre⟩
  rwa [foldStr_length]

/-- Witness for C3: the second (overlapping) occurrence of `"aa"` in the
run `"aaa"` is reported. -/
theorem search_ordered_and_complete_witness :
    (⟨2, 4⟩ : MatchPos) ∈
      performSearch [Block.para [⟨['a', 'a', 'a'], []⟩]] ['a', 'a'] true :=
  (search_ordered_and_complete [Block.para [⟨['a', 'a', 'a'], []⟩]]
      ['a', 'a'] true).2.1 (by decide) (1, ['a', 'a', 'a']) (by decide) 1
    (by decide) (by decide)

/-! ## Character-level lemmas for the replace transaction -/

theorem substAll_cons (g : Char → Char) (fc : Char) (repl : Chars)
    (x : Char) (v : Chars) :
    substAll g fc repl (x :: v) =
      (if g x = fc then repl else [x]) ++ substAll g fc repl v := by
  simp [substAll]

theorem substAll_append (g : Char → Char) (fc : Char) (repl : Chars)
    (s u : Chars) :
    substAll g fc repl (s ++ u) =
      substAll g fc repl s ++ substAll g fc repl u := by
  simp [substAll]

theorem occs_single_cons (a x : Char) (v : Chars) :
    occs [a] (x :: v) =
      (if a = x then [0] else []) ++ (occs [a] v).map (fun i => i + 1) := by
  unfold occs
  rw [List.length_cons, List.range_succ_eq_map, List.filter_cons,
    List.filter_map]
  have hcomp : ((fun i => List.isPrefixOf [a] ((x :: v).drop i)) ∘ Nat.succ) =
      (fun i => List.isPrefixOf [a] (v.drop i)) := by
    funext i
    simp [Function.comp, List.drop_succ_cons]
  rw [hcomp]
  by_cases hax : a = x <;> simp [List.isPrefixOf, hax]

theorem occs_single_append (a : Char) (u v : Chars) :
    occs [a] (u ++ v) =
      occs [a] u ++ (occs [a] v).map (fun i => u.length + i) := by
  induction u with
  | nil => simp [occs]
  | cons x u ih =>
    rw [List.cons_append, occs_single_cons, occs_single_cons, ih]
    have hfun : ((fun i => i + 1) ∘ fun i => u.length + i) =
        (fun i => (x :: u).length + i) := by
      funext i
      simp
      omega
    by_cases hax : a = x <;>
      simp [hax, List.map_append, List.map_map, hfun]

theorem occs_no_match (g : Char → Char) (fc : Char) (s : Chars)
    (h : ∀ x ∈ s, g x ≠ fc) : occs [fc] (s.map g) = [] := by
  unfold occs
  rw [List.filter_eq_nil_iff]
  intro i hi hp
  have hpre := List.isPrefixOf_iff_prefix.mp hp
  have h1 : fc ∈ (s.map g).drop i := hpre.subset (by simp)
  have h2 : fc ∈ s.map g := List.mem_of_mem_drop h1
  obtain ⟨x, hx, hgx⟩ := List.mem_map.mp h2
  exact h x hx hgx

theorem spliceC_cons (x : Char) (v : Chars) (o l : Nat) (ins : Chars) :
    spliceC (x :: v) (o + 1) l ins =
      (spliceC v o l ins).map (fun s => x :: s) := by
  unfold spliceC
  have harith : o + 1 + l = (o + l) + 1 := by omega
  by_cases h : o + l ≤ v.length
  · rw [if_pos (by simp; omega), if_pos h]
    rw [harith]
    simp [List.take_succ_cons, List.drop_succ_cons]
  · rw [if_neg (by simp; omega), if_neg h]
    rfl

theorem applyC_shift (ins : Chars) (x : Char) :
    ∀ (steps : List (Nat × Nat)) (v : Chars),
    applyC ins (x :: v) (steps.map (fun st => (st.1 + 1, st.2))) =
      (applyC ins v steps).map (fun s => x :: s) := by
  intro steps
  induction steps with
  | nil => intro v; simp [applyC]
  | cons st rest ih =>
    intro v
    obtain ⟨off, len⟩ := st
    rw [List.map_cons]
    simp only [applyC]
    rw [spliceC_cons]
    cases h : spliceC v off len ins with
    | none => simp
    | some v' => simp [ih v']

theorem applyC_append (ins : Chars) :
    ∀ (l1 l2 : List (Nat × Nat)) (s : Chars),
    applyC ins s (l1 ++ l2) =
      match applyC ins s l1 with
      | some s' => applyC ins s' l2
      | none => none := by
  intro l1
  induction l1 with
  | nil => intro l2 s; simp [applyC]
  | cons st rest ih =>
    intro l2 s
    obtain ⟨off, len⟩ := st
    simp only [List.cons_append, applyC]
    cases h : spliceC s off len ins <;> simp [ih]

/-- The heart of the single-character replace-all argument: folding the
replacement splices over the recorded occurrences, in reverse order,
substitutes every matching character. -/
theorem applyC_substAll (g : Char → Char) (fc : Char) (repl : Chars) :
    ∀ s : Chars,
    applyC repl s
      ((occs [fc] (s.map g)).reverse.map (fun i => (i, 1))) =
      some (substAll g fc repl s) := by
  intro s
  induction s with
  | nil => simp [occs, applyC, substAll]
  | cons x v ih =>
    rw [List.map_cons, occs_single_cons]
    have hlist : ∀ (O : List Nat),
        ((if fc = g x then [0] else []) ++
            O.map (fun i => i + 1)).reverse.map (fun i => (i, 1)) =
          (O.reverse.map (fun i => (i, 1))).map
              (fun st => (st.1 + 1, st.2)) ++
            ((if fc = g x then [0] else []).map (fun i => (i, 1))) := by
      intro O
      rw [List.reverse_append, List.map_append, ← List.map_reverse,
        List.map_map, List.map_map]
      congr 1
      by_cases h : fc = g x <;> simp [h]
    rw [hlist, applyC_append, applyC_shift, ih]
    by_cases hgx : g x = fc
    · have hfc : fc = g x := hgx.symm
      rw [if_pos hfc]
      simp only [Option.map_some', List.map_cons, List.map_nil]
      simp only [applyC, spliceC]
      rw [if_pos (by simp)]
      rw [substAll_cons, if_pos hgx]
      simp
    · have hfc : ¬ fc = g x := fun h => hgx h.symm
      rw [if_neg hfc]
      simp only [Option.map_some', List.map_nil]
      rw [substAll_cons, if_neg hgx]
      simp [applyC]

theorem substAll_no_match (g : Char → Char) (fc : Char) (repl : Chars)
    (s : Chars) (hrepl : ∀ r ∈ repl, g r ≠ fc) :
    ∀ x ∈ substAll g fc repl s, g x ≠ fc := by
  intro x hx
  unfold substAll at hx
  obtain ⟨y, -, hy⟩ := List.mem_flatMap.mp hx
  by_cases hgy : g y = fc
  · rw [if_pos hgy] at hy
    exact hrepl x hy
  · rw [if_neg hgy] at hy
    rw [List.mem_singleton] at hy
    subst hy
    exact hgy

/-! ## Run-level splices project onto character-level splices -/

theorem runsChars_nil : runsChars [] = [] := rfl

theorem runsChars_cons (r : Run) (rest : List Run) :
    runsChars (r :: rest) = r.text ++ runsChars rest := by
  simp [runsChars]

theorem runsChars_append (a b : List Run) :
    runsChars (a ++ b) = runsChars a ++ runsChars b := by
  simp [runsChars]

theorem runsLen_eq (rs : List Run) : runsLen rs = (runsChars rs).length := by
  induction rs with
  | nil => rfl
  | cons r rest ih => simp [runsLen_cons, runsChars_cons, ih]

theorem runsChars_runsTake : ∀ (rs : List Run) (n : Nat),
    runsChars (runsTake rs n) = (runsChars rs).take n := by
  intro rs
  induction rs with
  | nil => intro n; cases n <;> simp [runsTake, runsChars]
  | cons r rest ih =>
    intro n
    cases n with
    | zero => simp [runsTake, runsChars]
    | succ m =>
      unfold runsTake
      by_cases h1 : m + 1 ≤ r.text.length
      · rw [if_pos h1]
        simp only [runsChars_cons, runsChars_nil, List.append_nil]
        rw [List.take_append_of_le_length h1]
      · rw [if_neg h1]
        by_cases h2 : r.text.length = 0
        · rw [if_pos h2]
          have hr : r.text = [] := List.length_eq_zero.mp h2
          simp [runsChars_cons, hr, ih]
        · rw [if_neg h2]
          simp only [runsChars_cons, ih]
          have harith : m + 1 = r.text.length + (m + 1 - r.text.length) := by
            omega
          conv_rhs => rw [harith, List.take_append]

theorem runsChars_runsDrop : ∀ (rs : List Run) (n : Nat),
    runsChars (runsDrop rs n) = (runsChars rs).drop n := by
  intro rs
  induction rs with
  | nil => intro n; cases n <;> simp [runsDrop, runsChars]
  | cons r rest ih =>
    intro n
    cases n with
    | zero => simp [runsDrop]
    | succ m =>
      unfold runsDrop
      by_cases h1 : m + 1 < r.text.length
      · rw [if_pos h1]
        simp only [runsChars_cons]
        rw [List.drop_append_of_le_length (by omega)]
      · rw [if_neg h1]
        simp only [runsChars_cons, ih]
        have harith : m + 1 = r.text.length + (m + 1 - r.text.length) := by
          omega
        conv_rhs => rw [harith, List.drop_append]

theorem runsChars_mergeRuns : ∀ rs : List Run,
    runsChars (mergeRuns rs) = runsChars rs := by
  intro rs
  induction rs with
  | nil => rfl
  | cons r rest ih =>
    unfold mergeRuns
    by_cases h : r.text = []
    · rw [if_pos h, ih, runsChars_cons, h]
      simp
    · rw [if_neg h]
      rcases hm : mergeRuns rest with - | ⟨s, tail⟩
      · rw [hm] at ih
        dsimp only
        conv_rhs => rw [runsChars_cons, ← ih]
        rw [runsChars_cons]
      · rw [hm] at ih
        dsimp only
        by_cases hmk : r.marks = s.marks
        · rw [if_pos hmk]
          conv_rhs => rw [runsChars_cons, ← ih, runsChars_cons]
          rw [runsChars_cons]
          simp [List.append_assoc]
        · rw [if_neg hmk]
          conv_rhs => rw [runsChars_cons, ← ih]
          rw [runsChars_cons, runsChars_cons]

theorem spliceRuns_chars (rs : List Run) (off len : Nat) (ins : List Run) :
    (spliceRuns rs off len ins).map runsChars =
      spliceC (runsChars rs) off len (runsChars ins) := by
  unfold spliceRuns spliceC
  rw [← runsLen_eq]
  by_cases h : off + len ≤ runsLen rs
  · rw [if_pos h, if_pos h]
    simp only [Option.map_some']
    rw [runsChars_mergeRuns, runsChars_append, runsChars_append,
      runsChars_runsTake, runsChars_runsDrop]
  · rw [if_neg h, if_neg h]
    rfl

theorem applyR_chars (ins : List Run) :
    ∀ (steps : List (Nat × Nat)) (rs : List Run),
    (applyR ins rs steps).map runsChars =
      applyC (runsChars ins) (runsChars rs) steps := by
  intro steps
  induction steps with
  | nil => intro rs; simp [applyR, applyC]
  | cons st rest ih =>
    intro rs
    obtain ⟨off, len⟩ := st
    simp only [applyR, applyC]
    have hproj := spliceRuns_chars rs off len ins
    cases h : spliceRuns rs off len ins with
    | none =>
      rw [h] at hproj
      simp only [Option.map_none'] at hproj
      rw [← hproj]
      rfl
    | some rs' =>
      rw [h] at hproj
      simp only [Option.map_some'] at hproj
      rw [← hproj]
      exact ih rs'

/-! ## Document-level structure of the replace transaction -/

theorem spliceRuns_some_bound {rs : List Run} {off len : Nat}
    {ins : List Run} {rs' : List Run}
    (h : spliceRuns rs off len ins = some rs') : off + len ≤ runsLen rs := by
  unfold spliceRuns at h
  split at h
  · assumption
  · simp at h

theorem spliceRuns_some_of_le {rs : List Run} {off len : Nat}
    (ins : List Run) (h : off + len ≤ runsLen rs) :
    ∃ rs', spliceRuns rs off len ins = some rs' := by
  unfold spliceRuns
  rw [if_pos h]
  exact ⟨_, rfl⟩

theorem inlineOf_remake {b : Block} {rs : List Run}
    (h : inlineOf b = some rs) (rs' : List Run) :
    inlineOf (remake b rs') = some rs' := by
  cases b <;> simp [inlineOf] at h ⊢ <;> simp [remake, inlineOf]

theorem remake_self {b : Block} {rs : List Run}
    (h : inlineOf b = some rs) : remake b rs = b := by
  cases b <;> simp [inlineOf] at h <;> simp [remake, h]

theorem remake_remake (b : Block) (rs rs' : List Run) :
    remake (remake b rs) rs' = remake b rs' := by
  cases b <;> rfl

/-- Replace positions are relative: laying the same blocks out from a
different base position shifts every valid range along with it. -/
theorem replaceInBlocks_shift : ∀ (d : Doc) (p q a c : Nat)
    (ins : List Run), a ≤ c →
    replaceInBlocks d p (p + a) (p + c) ins =
      replaceInBlocks d q (q + a) (q + c) ins := by
  intro d
  induction d with
  | nil => intro p q a c ins hac; rfl
  | cons blk bs ih =>
    intro p q a c ins hac
    unfold replaceInBlocks
    by_cases h1 : nodeSize blk ≤ a
    · rw [if_pos (by omega), if_pos (by omega)]
      have e1 : p + a = (p + nodeSize blk) + (a - nodeSize blk) := by omega
      have e2 : p + c = (p + nodeSize blk) + (c - nodeSize blk) := by omega
      have e3 : q + a = (q + nodeSize blk) + (a - nodeSize blk) := by omega
      have e4 : q + c = (q + nodeSize blk) + (c - nodeSize blk) := by omega
      rw [e1, e2, e3, e4, ih (p + nodeSize blk) (q + nodeSize blk) _ _ ins
        (by omega)]
    · rw [if_neg (by omega), if_neg (by omega)]
      cases hin : inlineOf blk with
      | none => rfl
      | some rs =>
        dsimp only
        by_cases hc : 1 ≤ a ∧ c ≤ 1 + runsLen rs
        · rw [if_pos ⟨by omega, by omega, by omega⟩,
            if_pos ⟨by omega, by omega, by omega⟩]
          have e1 : p + a - (p + 1) = a - 1 := by omega
          have e2 : p + c - (p + a) = c - a := by omega
          have e3 : q + a - (q + 1) = a - 1 := by omega
          have e4 : q + c - (q + a) = c - a := by omega
          rw [e1, e2, e3, e4]
        · rw [if_neg (by omega), if_neg (by omega)]

/-- The one-step unfolding of `replaceInBlocks` on a non-empty document. -/
theorem replaceInBlocks_cons (b : Block) (bs : Doc) (p f t : Nat)
    (ins : List Run) :
    replaceInBlocks (b :: bs) p f t ins =
      if p + nodeSize b ≤ f then
        (replaceInBlocks bs (p + nodeSize b) f t ins).map (fun d => b :: d)
      else
        match inlineOf b with
        | none => .error .badRange
        | some rs =>
          if p + 1 ≤ f ∧ f ≤ t ∧ t ≤ p + 1 + runsLen rs then
            match spliceRuns rs (f - (p + 1)) (t - f) ins with
            | some rs' => .ok (remake b rs' :: bs)
            | none => .error .badRange
          else .error .badRange := by
  rfl

/-- A replace step whose range lies inside the inline content of the
first block rewrites exactly that block. -/
theorem replaceWithDoc_inline {b : Block} {rs : List Run} {bs : Doc}
    {f t : Nat} {ins : List Run} {rs' : List Run}
    (hin : inlineOf b = some rs) (hf : 1 ≤ f) (hft : f ≤ t)
    (hsp : spliceRuns rs (f - 1) (t - f) ins = some rs') :
    replaceWithDoc (b :: bs) f t ins = .ok (remake b rs' :: bs) := by
  have hbound := spliceRuns_some_bound hsp
  have ht : t ≤ 1 + runsLen rs := by omega
  unfold replaceWithDoc replaceInBlocks
  rw [if_neg (by rw [inlineOf_nodeSize hin]; omega), hin]
  dsimp only
  rw [if_pos ⟨by omega, hft, by omega⟩]
  have e1 : f - (0 + 1) = f - 1 := by omega
  rw [e1, hsp]

theorem applyRepls_append (repl : Chars) : ∀ (l1 l2 : List MatchPos)
    (d : Doc),
    applyRepls repl d (l1 ++ l2) =
      match applyRepls repl d l1 with
      | .ok d' => applyRepls repl d' l2
      | .error e => .error e := by
  intro l1
  induction l1 with
  | nil => intro l2 d; rfl
  | cons m rest ih =>
    intro l2 d
    simp only [List.cons_append, applyRepls]
    cases h : replaceAllStep d m repl <;> simp [ih]

/-- Replacement steps whose ranges lie inside the first block act on that
block alone, and mirror the run-level splice fold. -/
theorem applyRepls_inline (repl : Chars) (hrepl : repl ≠ []) :
    ∀ (ms : List MatchPos) (b : Block) (rs rs' : List Run) (bs : Doc),
    inlineOf b = some rs →
    (∀ m ∈ ms, 1 ≤ m.start ∧ m.start ≤ m.stop) →
    applyR [⟨repl, []⟩] rs
      (ms.map (fun m => (m.start - 1, m.stop - m.start))) = some rs' →
    applyRepls repl (b :: bs) ms = .ok (remake b rs' :: bs) := by
  intro ms
  induction ms with
  | nil =>
    intro b rs rs' bs hin hb happ
    simp only [List.map_nil, applyR] at happ
    cases happ
    simp [applyRepls, remake_self hin]
  | cons m rest ih =>
    intro b rs rs' bs hin hb happ
    simp only [List.map_cons, applyR] at happ
    cases hsp : spliceRuns rs (m.start - 1) (m.stop - m.start)
        [⟨repl, []⟩] with
    | none => rw [hsp] at happ; exact absurd happ (by simp)
    | some rs₁ =>
      rw [hsp] at happ
      have hm := hb m (List.mem_cons_self _ _)
      have hstep : replaceAllStep (b :: bs) m repl =
          .ok (remake b rs₁ :: bs) := by
        unfold replaceAllStep schemaText
        rw [if_neg hrepl]
        exact replaceWithDoc_inline hin hm.1 hm.2 hsp
      simp only [applyRepls, hstep]
      have := ih (remake b rs₁) rs₁ rs' bs (inlineOf_remake hin rs₁)
        (fun x hx => hb x (List.mem_cons_of_mem _ hx)) happ
      rwa [remake_remake] at this

/-- Replacement steps whose ranges start at or after the end of the first
block leave it untouched and act on the remaining blocks, shifted. -/
theorem applyRepls_skip (repl : Chars) :
    ∀ (ms : List MatchPos) (b : Block) (bs : Doc),
    (∀ m ∈ ms, nodeSize b ≤ m.start ∧ m.start ≤ m.stop) →
    applyRepls repl (b :: bs) ms =
      (applyRepls repl bs (ms.map (unshiftMatch (nodeSize b)))).map
        (fun d => b :: d) := by
  intro ms
  induction ms with
  | nil => intro b bs h; rfl
  | cons m rest ih =>
    intro b bs hb
    have hm := hb m (List.mem_cons_self _ _)
    have hskip : ∀ r : Run, replaceWithDoc (b :: bs) m.start m.stop [r] =
        (replaceWithDoc bs (m.start - nodeSize b) (m.stop - nodeSize b)
          [r]).map (fun d => b :: d) := by
      intro r
      unfold replaceWithDoc
      rw [replaceInBlocks_cons, if_pos (by omega)]
      have e1 : m.start = (0 + nodeSize b) + (m.start - nodeSize b) := by
        omega
      have e2 : m.stop = (0 + nodeSize b) + (m.stop - nodeSize b) := by
        omega
      conv_lhs => rw [e1, e2]
      rw [replaceInBlocks_shift bs (0 + nodeSize b) 0
        (m.start - nodeSize b) (m.stop - nodeSize b) [r] (by omega),
        Nat.zero_add, Nat.zero_add]
    simp only [List.map_cons, applyRepls, replaceAllStep]
    cases hs : schemaText repl with
    | error e => rfl
    | ok r =>
      dsimp only [unshiftMatch]
      rw [hskip r]
      cases hrep : replaceWithDoc bs (m.start - nodeSize b)
          (m.stop - nodeSize b) [r] with
      | error e => rfl
      | ok d' =>
        simp only [Except.map]
        rw [ih b d' (fun x hx => hb x (List.mem_cons_of_mem _ hx))]
        cases applyRepls repl d'
            (List.map (unshiftMatch (nodeSize b)) rest) <;> rfl

/-! ## Blockwise decomposition of the search -/

theorem runsWithPos_shift : ∀ (rs : List Run) (p q : Nat),
    runsWithPos rs (p + q) =
      (runsWithPos rs q).map (fun e => (p + e.1, e.2)) := by
  intro rs
  induction rs with
  | nil => intro p q; rfl
  | cons r rest ih =>
    intro p q
    simp only [runsWithPos, List.map_cons]
    rw [Nat.add_assoc, ih]

theorem textRunsAux_shift : ∀ (d : Doc) (p : Nat),
    textRunsAux d p = (textRunsAux d 0).map (fun e => (p + e.1, e.2)) := by
  intro d
  induction d with
  | nil => intro p; rfl
  | cons b bs ih =>
    intro p
    simp only [textRunsAux, List.map_append]
    congr 1
    · cases hin : inlineOf b with
      | none => rfl
      | some rs =>
        dsimp only
        have h1 : p + 1 = p + 1 := rfl
        rw [show (0 : Nat) + 1 = 1 from rfl, ← runsWithPos_shift rs p 1]
    · rw [ih (p + nodeSize b), ih (0 + nodeSize b), List.map_map]
      congr 1
      funext e
      simp
      omega

theorem performSearch_cons (b : Block) (bs : Doc) (term : Chars)
    (cs : Bool) (hterm : term ≠ []) :
    performSearch (b :: bs) term cs =
      blockMatches b term cs ++
        (performSearch bs term cs).map (shiftMatch (nodeSize b)) := by
  unfold performSearch textRuns
  rw [if_neg hterm, if_neg hterm, textRunsAux, List.flatMap_append]
  congr 1
  · unfold blockMatches
    cases hin : inlineOf b with
    | none => rfl
    | some rs => rw [show (0 : Nat) + 1 = 1 from rfl]
  · rw [textRunsAux_shift bs (0 + nodeSize b), List.flatMap_map,
      List.map_flatMap]
    congr 1
    funext e
    rw [List.map_map]
    congr 1
    funext i
    simp [shiftMatch]
    omega

theorem search_stop_eq {d : Doc} {term : Chars} {cs : Bool} :
    ∀ m ∈ performSearch d term cs, m.stop = m.start + term.length := by
  intro m hm
  obtain ⟨-, e, -, i, -, rfl⟩ := mem_performSearch.mp hm
  simp

/-! ## Length accounting for the replace transaction -/

theorem docTextLength_cons (b : Block) (bs : Doc) :
    docTextLength (b :: bs) =
      (match inlineOf b with
        | some rs => runsLen rs
        | none => 0) + docTextLength bs := by
  unfold docTextLength docChars
  rw [List.flatMap_cons, List.length_append]
  cases hin : inlineOf b <;> simp [runsLen_eq]

theorem spliceRuns_length {rs rs' : List Run} {off len : Nat}
    {ins : List Run}
    (h : spliceRuns rs off len ins = some rs') :
    runsLen rs' + len = runsLen rs + runsLen ins := by
  have hb := spliceRuns_some_bound h
  have hchars := spliceRuns_chars rs off len ins
  rw [h] at hchars
  simp only [Option.map_some'] at hchars
  unfold spliceC at hchars
  rw [if_pos (by rw [← runsLen_eq]; exact hb)] at hchars
  simp only [Option.some.injEq] at hchars
  have hlen := congrArg List.length hchars
  simp only [List.length_append, List.length_take, List.length_drop] at hlen
  rw [runsLen_eq rs', runsLen_eq rs, runsLen_eq ins]
  rw [runsLen_eq rs] at hb
  omega

theorem docTextLength_cons_some {b : Block} {rs : List Run} (bs : Doc)
    (h : inlineOf b = some rs) :
    docTextLength (b :: bs) = runsLen rs + docTextLength bs := by
  rw [docTextLength_cons, h]

theorem replaceInBlocks_length : ∀ (d : Doc) (p f t : Nat)
    (ins : List Run) (d' : Doc),
    replaceInBlocks d p f t ins = .ok d' →
    docTextLength d' + (t - f) = docTextLength d + runsLen ins := by
  intro d
  induction d with
  | nil => intro p f t ins d' h; exact absurd h (by simp [replaceInBlocks])
  | cons b bs ih =>
    intro p f t ins d' h
    rw [replaceInBlocks_cons] at h
    split at h
    · cases hin : replaceInBlocks bs (p + nodeSize b) f t ins with
      | error e => rw [hin] at h; exact absurd h (by simp [Except.map])
      | ok d'' =>
        rw [hin] at h
        simp only [Except.map] at h
        cases h
        have := ih (p + nodeSize b) f t ins d'' hin
        rw [docTextLength_cons, docTextLength_cons]
        omega
    · split at h
      · exact absurd h (by simp)
      · next rs heq =>
        split at h
        · cases hsp : spliceRuns rs (f - (p + 1)) (t - f) ins with
          | none => rw [hsp] at h; exact absurd h (by simp)
          | some rs' =>
            rw [hsp] at h
            simp only [Except.ok.injEq] at h
            subst h
            have hlen := spliceRuns_length hsp
            rw [docTextLength_cons_some bs (inlineOf_remake heq rs'),
              docTextLength_cons_some bs heq]
            omega
        · exact absurd h (by simp)

theorem applyRepls_length (repl : Chars) : ∀ (ms : List MatchPos)
    (d d' : Doc), applyRepls repl d ms = .ok d' →
    docTextLength d' + (ms.map (fun m => m.stop - m.start)).sum =
      docTextLength d + ms.length * repl.length := by
  intro ms
  induction ms with
  | nil =>
    intro d d' h
    simp only [applyRepls, Except.ok.injEq] at h
    subst h
    simp
  | cons m rest ih =>
    intro d d' h
    simp only [applyRepls, replaceAllStep] at h
    cases hs : schemaText repl with
    | error e => rw [hs] at h; exact absurd h (by simp)
    | ok r =>
      rw [hs] at h
      dsimp only at h
      have hr : r = ⟨repl, []⟩ ∧ repl ≠ [] := by
        unfold schemaText at hs
        split at hs
        · exact absurd hs (by simp)
        · exact ⟨by cases hs; rfl, by assumption⟩
      cases hrep : replaceWithDoc d m.start m.stop [r] with
      | error e => rw [hrep] at h; exact absurd h (by simp)
      | ok d₁ =>
        rw [hrep] at h
        have h1 := replaceInBlocks_length d 0 m.start m.stop [r] d₁ hrep
        have h2 := ih d₁ d' h
        have hrl : runsLen [r] = repl.length := by
          rw [hr.1]
          simp [runsLen]
        simp only [List.map_cons, List.sum_cons, List.length_cons]
        rw [hrl] at h1
        have : (rest.length + 1) * repl.length =
            rest.length * repl.length + repl.length := by ring
        omega

/-! ## Search matches are always replaceable -/

theorem search_replace_ok : ∀ (d : Doc) {term : Chars} {cs : Bool}
    {m : MatchPos}, m ∈ performSearch d term cs → ∀ ins : List Run,
    ∃ d', replaceWithDoc d m.start m.stop ins = .ok d' := by
  intro d
  induction d with
  | nil =>
    intro term cs m hm ins
    unfold performSearch textRuns textRunsAux at hm
    simp at hm
  | cons b bs ih =>
    intro term cs m hm ins
    have hterm : term ≠ [] := (mem_performSearch.mp hm).1
    rw [performSearch_cons b bs term cs hterm, List.mem_append] at hm
    rcases hm with hmb | hmr
    · unfold blockMatches at hmb
      cases hin : inlineOf b with
      | none => rw [hin] at hmb; simp at hmb
      | some rs =>
        rw [hin] at hmb
        dsimp only at hmb
        rw [List.mem_flatMap] at hmb
        obtain ⟨pt, hpt, hmm⟩ := hmb
        rw [List.mem_map] at hmm
        obtain ⟨i, hi, rfl⟩ := hmm
        have hb1 := runsWithPos_bound rs 1 pt hpt
        have hocc := occ_bound hi
        rw [foldStr_length, foldStr_length] at hocc
        have hf : 1 ≤ pt.1 + i := by omega
        have hft : pt.1 + i ≤ pt.1 + i + term.length := by omega
        have hsp : (pt.1 + i - 1) + (pt.1 + i + term.length - (pt.1 + i)) ≤
            runsLen rs := by omega
        obtain ⟨rs', hrs'⟩ := spliceRuns_some_of_le ins hsp
        exact ⟨_, replaceWithDoc_inline hin hf hft hrs'⟩
    · rw [List.mem_map] at hmr
      obtain ⟨q, hq, rfl⟩ := hmr
      obtain ⟨d'', hd''⟩ := ih hq ins
      have hqs : q.stop = q.start + term.length := search_stop_eq q hq
      refine ⟨b :: d'', ?_⟩
      unfold replaceWithDoc at hd'' ⊢
      rw [replaceInBlocks_cons]
      rw [if_pos (by simp [shiftMatch])]
      have e1 : (shiftMatch (nodeSize b) q).start =
          (0 + nodeSize b) + q.start := by simp [shiftMatch]
      have e2 : (shiftMatch (nodeSize b) q).stop =
          (0 + nodeSize b) + q.stop := by simp [shiftMatch]
      rw [e1, e2, replaceInBlocks_shift bs (0 + nodeSize b) 0 q.start q.stop
        ins (by omega), Nat.zero_add, Nat.zero_add, hd'']
      rfl

/-! ## Replace-all for a single-character term -/

theorem docChars_cons (b : Block) (bs : Doc) :
    docChars (b :: bs) =
      (match inlineOf b with
        | some rs => runsChars rs
        | none => []) ++ docChars bs := by
  simp [docChars]

theorem foldStr_eq_map (cs : Bool) (t : Chars) :
    foldStr cs t = t.map (foldChar cs) := by
  cases cs
  · simp [foldStr, foldChar]
  · simp only [foldStr, foldChar, if_true]
    exact (List.map_id' t).symm

theorem runsWithPos_occs_single (g : Char → Char) (fc : Char) :
    ∀ (rs : List Run) (p : Nat),
    ((runsWithPos rs p).flatMap (fun pt =>
      (occs [fc] (pt.2.map g)).map
        (fun i => (⟨pt.1 + i, pt.1 + i + 1⟩ : MatchPos)))) =
      (occs [fc] ((runsChars rs).map g)).map
        (fun i => (⟨p + i, p + i + 1⟩ : MatchPos)) := by
  intro rs
  induction rs with
  | nil => intro p; simp [runsWithPos, runsChars, occs]
  | cons r rest ih =>
    intro p
    simp only [runsWithPos, List.flatMap_cons, runsChars_cons,
      List.map_append, occs_single_append, List.length_map]
    rw [ih (p + r.text.length)]
    congr 1
    rw [List.map_map]
    congr 1
    funext i
    simp only [Function.comp, MatchPos.mk.injEq]
    omega

theorem blockMatches_single_char {b : Block} {rs : List Run} (c : Char)
    (cs : Bool) (hin : inlineOf b = some rs) :
    blockMatches b [c] cs =
      (occs [foldChar cs c] ((runsChars rs).map (foldChar cs))).map
        (fun i => ⟨1 + i, 1 + i + 1⟩) := by
  unfold blockMatches
  rw [hin]
  dsimp only
  have h1 : foldStr cs [c] = [foldChar cs c] := by
    cases cs <;> simp [foldStr, foldChar]
  simp only [h1, foldStr_eq_map, List.length_singleton]
  exact runsWithPos_occs_single (foldChar cs) (foldChar cs c) rs 1

/-- Replace-all with a single-character term substitutes every matching
character of the document; when the replacement contains no matching
character, a subsequent search finds nothing. -/
theorem replaceAll_single_char (cs : Bool) (c : Char) (repl : Chars)
    (hrepl : repl ≠ [])
    (hc : ∀ r ∈ repl, foldChar cs r ≠ foldChar cs c) :
    ∀ d : Doc, ∃ d',
      replaceAllDoc d (performSearch d [c] cs) repl = .ok d' ∧
      docChars d' =
        substAll (foldChar cs) (foldChar cs c) repl (docChars d) ∧
      performSearch d' [c] cs = [] := by
  intro d
  induction d with
  | nil =>
    refine ⟨[], ?_, ?_, ?_⟩ <;>
      simp [performSearch, textRuns, textRunsAux, replaceAllDoc,
        applyRepls, docChars, substAll]
  | cons b bs ih =>
    obtain ⟨d0, hd0, hchars0, hsearch0⟩ := ih
    have hterm : ([c] : Chars) ≠ [] := by simp
    have hall : ∀ m ∈ ((performSearch bs [c] cs).map
        (shiftMatch (nodeSize b))).reverse,
        nodeSize b ≤ m.start ∧ m.start ≤ m.stop := by
      intro m hm
      rw [List.mem_reverse, List.mem_map] at hm
      obtain ⟨q, hq, rfl⟩ := hm
      have := search_stop_eq q hq
      simp [shiftMatch]
      omega
    have hphase1 : applyRepls repl (b :: bs)
        ((performSearch bs [c] cs).map (shiftMatch (nodeSize b))).reverse =
        .ok (b :: d0) := by
      rw [applyRepls_skip repl _ b bs hall, ← List.map_reverse,
        List.map_map]
      have hid : (unshiftMatch (nodeSize b) ∘ shiftMatch (nodeSize b)) =
          id := by
        funext m
        simp [unshiftMatch, shiftMatch]
      rw [hid, List.map_id]
      have hbase : applyRepls repl bs (performSearch bs [c] cs).reverse =
          .ok d0 := hd0
      rw [hbase]
      rfl
    rw [performSearch_cons b bs [c] cs hterm]
    unfold replaceAllDoc
    rw [List.reverse_append, applyRepls_append, hphase1]
    dsimp only
    cases hin : inlineOf b with
    | none =>
      have hbm : blockMatches b [c] cs = [] := by
        unfold blockMatches
        rw [hin]
      rw [hbm]
      refine ⟨b :: d0, by simp [applyRepls], ?_, ?_⟩
      · rw [docChars_cons, docChars_cons, hin]
        dsimp only
        simp [hchars0]
      · rw [performSearch_cons b d0 [c] cs hterm]
        have hbm' : blockMatches b [c] cs = [] := hbm
        simp [hbm', hsearch0]
    | some rs =>
      have hbm := blockMatches_single_char c cs hin
      have hsteps : (blockMatches b [c] cs).reverse.map
          (fun m => (m.start - 1, m.stop - m.start)) =
          (occs [foldChar cs c] ((runsChars rs).map (foldChar cs))).reverse.map
            (fun i => (i, 1)) := by
        rw [hbm, ← List.map_reverse, List.map_map]
        congr 1
        funext i
        simp only [Function.comp, Prod.mk.injEq]
        omega
      have happR : ∃ rs', applyR [⟨repl, []⟩] rs
          ((blockMatches b [c] cs).reverse.map
            (fun m => (m.start - 1, m.stop - m.start))) = some rs' ∧
          runsChars rs' =
            substAll (foldChar cs) (foldChar cs c) repl (runsChars rs) := by
        have hproj := applyR_chars [(⟨repl, []⟩ : Run)]
          ((blockMatches b [c] cs).reverse.map
            (fun m => (m.start - 1, m.stop - m.start))) rs
        rw [hsteps] at hproj
        have hrc : runsChars [(⟨repl, []⟩ : Run)] = repl := by
          simp [runsChars]
        rw [hrc,
          applyC_substAll (foldChar cs) (foldChar cs c) repl
            (runsChars rs)] at hproj
        obtain ⟨rs', h1, h2⟩ := Option.map_eq_some'.mp hproj
        exact ⟨rs', by rw [hsteps]; exact h1, h2⟩
      obtain ⟨rs', hR, hrs'⟩ := happR
      have hbounds : ∀ m ∈ (blockMatches b [c] cs).reverse,
          1 ≤ m.start ∧ m.start ≤ m.stop := by
        intro m hm
        rw [List.mem_reverse, hbm, List.mem_map] at hm
        obtain ⟨i, -, rfl⟩ := hm
        simp
      have hDB := applyRepls_inline repl hrepl
        (blockMatches b [c] cs).reverse b rs rs' d0 hin hbounds hR
      refine ⟨remake b rs' :: d0, hDB, ?_, ?_⟩
      · rw [docChars_cons, docChars_cons, hin, inlineOf_remake hin rs']
        dsimp only
        rw [hrs', hchars0, substAll_append]
      · rw [performSearch_cons _ d0 [c] cs hterm]
        have hbm' := blockMatches_single_char c cs (inlineOf_remake hin rs')
        rw [hbm', hrs',
          occs_no_match (foldChar cs) (foldChar cs c) _
            (substAll_no_match (foldChar cs) (foldChar cs c) repl
              (runsChars rs) hc)]
        simp [hsearch0]

/-! ## Claim C1: replace-all -/

/-- **C1 counterexample**: when the replacement itself contains the search
term, re-running the search after `replaceAll` does *not* return 0
matches: replacing the single match of `"a"` by `"aa"` in the document
`⟨para "a"⟩` leaves a document in which the same search finds 2 matches. -/
theorem replaceAll_zero_matches_cex :
    performSearch [Block.para [⟨['a'], []⟩]] ['a'] true ≠ [] ∧
    replaceAllDoc [Block.para [⟨['a'], []⟩]]
      (performSearch [Block.para [⟨['a'], []⟩]] ['a'] true) ['a', 'a'] =
      .ok [Block.para [⟨['a', 'a'], []⟩]] ∧
    performSearch [Block.para [⟨['a', 'a'], []⟩]] ['a'] true ≠ [] :=
  ⟨by decide, rfl, by decide⟩

/-- **C1 amended**: for every document and term with at least one match,
`replaceAll` builds one replacement step per recorded match, processed in
reverse document order (strictly decreasing `from`), dispatched as a
single transaction, and clears `searchTerm` / `matchCount` /
`currentMatch` on success; whenever the transaction applies, the total
text length changes by `matchCount * (len(repl) - len(term))`; and the
search-again-finds-nothing property holds for a single-character term
whose (case-folded) character does not occur in the (case-folded)
replacement — but not in general, as the counterexample shows. -/
theorem replaceAll_spec (d : Doc) (term repl : Chars) (cs : Bool)
    (hne : performSearch d term cs ≠ []) :
    (replaceAllSteps (performSearch d term cs) repl).length =
      (performSearch d term cs).length ∧
    (replaceAllSteps (performSearch d term cs) repl).Pairwise
      (fun a b => b.1 < a.1) ∧
    (∀ d' st, replaceAllUI d (performSearch d term cs) repl =
      .ok (d', st) → st = ⟨[], 0, 0⟩) ∧
    (∀ d', replaceAllDoc d (performSearch d term cs) repl = .ok d' →
      docTextLength d' + (performSearch d term cs).length * term.length =
        docTextLength d +
          (performSearch d term cs).length * repl.length) ∧
    (∀ c : Char, term = [c] → repl ≠ [] →
      (∀ r ∈ repl, foldChar cs r ≠ foldChar cs c) →
      ∃ d', replaceAllDoc d (performSearch d term cs) repl = .ok d' ∧
        performSearch d' term cs = []) := by
  refine ⟨by simp [replaceAllSteps], ?_, ?_, ?_, ?_⟩
  · unfold replaceAllSteps
    rw [List.pairwise_map, List.pairwise_reverse]
    exact (performSearch_sorted d term cs).imp (fun h => h)
  · intro d' st h
    unfold replaceAllUI at h
    cases hda : replaceAllDoc d (performSearch d term cs) repl with
    | error e => rw [hda] at h; exact absurd h (by simp [Except.map])
    | ok d'' =>
      rw [hda] at h
      simp only [Except.map, Except.ok.injEq, Prod.mk.injEq] at h
      exact h.2.symm
  · intro d' h
    unfold replaceAllDoc at h
    have hlen := applyRepls_length repl
      (performSearch d term cs).reverse d d' h
    rw [List.map_reverse, List.sum_reverse, List.length_reverse] at hlen
    have hmap : (performSearch d term cs).map
        (fun m => m.stop - m.start) =
        (performSearch d term cs).map (fun _ => term.length) := by
      apply List.map_congr_left
      intro m hm
      rw [search_stop_eq m hm]
      omega
    rw [hmap, List.map_const', List.sum_replicate, smul_eq_mul] at hlen
    omega
  · intro c hterm hrepl hc
    subst hterm
    obtain ⟨d', h1, -, h3⟩ := replaceAll_single_char cs c repl hrepl hc d
    exact ⟨d', h1, h3⟩

/-- Witness for the amended C1, at the spec's own scenario scaled down:
one match of `"foo"` replaced by `"ba"` changes the length by
`1 * (2 - 3)`. -/
theorem replaceAll_spec_witness :
    docTextLength [Block.para [⟨['b', 'a'], []⟩]] +
      (performSearch [Block.para [⟨['f', 'o', 'o'], []⟩]]
        ['f', 'o', 'o'] true).length * (['f', 'o', 'o'] : Chars).length =
    docTextLength [Block.para [⟨['f', 'o', 'o'], []⟩]] +
      (performSearch [Block.para [⟨['f', 'o', 'o'], []⟩]]
        ['f', 'o', 'o'] true).length * (['b', 'a'] : Chars).length :=
  (replaceAll_spec [Block.para [⟨['f', 'o', 'o'], []⟩]] ['f', 'o', 'o']
      ['b', 'a'] true (by decide)).2.2.2.1
    [Block.para [⟨['b', 'a'], []⟩]] rfl

/-! ## Claim C9: empty replacements -/

theorem replaceInBlocks_error_badRange : ∀ (d : Doc) (p f t : Nat)
    (ins : List Run) (e : ReplaceErr),
    replaceInBlocks d p f t ins = .error e → e = .badRange := by
  intro d
  induction d with
  | nil =>
    intro p f t ins e h
    unfold replaceInBlocks at h
    cases h
    rfl
  | cons b bs ih =>
    intro p f t ins e h
    rw [replaceInBlocks_cons] at h
    split at h
    · cases hin : replaceInBlocks bs (p + nodeSize b) f t ins with
      | error e' =>
        rw [hin] at h
        simp only [Except.map, Except.error.injEq] at h
        subst h
        exact ih _ _ _ _ _ hin
      | ok d'' => rw [hin] at h; exact absurd h (by simp [Except.map])
    · split at h
      · cases h; rfl
      · split at h
        · split at h
          · exact absurd h (by simp)
          · cases h; rfl
        · cases h; rfl

theorem applyRepls_ne_emptyText (repl : Chars) (hrepl : repl ≠ []) :
    ∀ (ms : List MatchPos) (d : Doc),
    applyRepls repl d ms ≠ .error .emptyText := by
  intro ms
  induction ms with
  | nil => intro d; simp [applyRepls]
  | cons m rest ih =>
    intro d
    simp only [applyRepls, replaceAllStep]
    unfold schemaText
    rw [if_neg hrepl]
    dsimp only
    cases hrep : replaceWithDoc d m.start m.stop [⟨repl, []⟩] with
    | ok d₁ => exact ih d₁
    | error e =>
      have he := replaceInBlocks_error_badRange d 0 m.start m.stop
        [⟨repl, []⟩] e hrep
      subst he
      simp

/-- **C9**: with at least one recorded match, `replaceAll` with an empty
replacement throws while building its first step (`schema.text("")` is
rejected by the schema), leaving the error branch unreachable for any
non-empty replacement; `replaceOne` with an empty replacement instead
deletes the current match without error, shrinking the text by the
term's length. -/
theorem replace_empty_replacement_spec (d : Doc) (term repl : Chars)
    (cs : Bool) :
    (performSearch d term cs ≠ [] →
      replaceAllDoc d (performSearch d term cs) [] =
        .error .emptyText) ∧
    (repl ≠ [] →
      replaceAllDoc d (performSearch d term cs) repl ≠
        .error .emptyText) ∧
    (∀ cur m, cur ≠ 0 →
      (performSearch d term cs).get? (cur - 1) = some m →
      ∃ d', replaceOne d (performSearch d term cs) cur [] = .ok d' ∧
        docTextLength d' + term.length = docTextLength d) := by
  refine ⟨?_, ?_, ?_⟩
  · intro h
    have hne : (performSearch d term cs).reverse ≠ [] := by
      simpa using h
    obtain ⟨m, l, hml⟩ := List.exists_cons_of_ne_nil hne
    unfold replaceAllDoc
    rw [hml]
    simp [applyRepls, replaceAllStep, schemaText]
  · intro h
    exact applyRepls_ne_emptyText repl h _ d
  · intro cur m hcur hget
    have hm : m ∈ performSearch d term cs := List.get?_mem hget
    have hnil : performSearch d term cs ≠ [] := by
      intro hx
      rw [hx] at hget
      simp [List.get?] at hget
    unfold replaceOne
    rw [if_neg (by
      push_neg
      exact ⟨by simpa using hnil, hcur⟩)]
    rw [hget]
    dsimp only
    rw [if_pos rfl]
    obtain ⟨d', hd'⟩ := search_replace_ok d hm []
    refine ⟨d', hd', ?_⟩
    have hlen := replaceInBlocks_length d 0 m.start m.stop [] d' hd'
    have hstop := search_stop_eq m hm
    have hzero : runsLen ([] : List Run) = 0 := rfl
    omega

/-- Witness for C9: replacing all matches of `"foo"` in `⟨para "foo"⟩`
with the empty string throws the empty-text error. -/
theorem replace_empty_replacement_spec_witness :
    replaceAllDoc [Block.para [⟨['f', 'o', 'o'], []⟩]]
      (performSearch [Block.para [⟨['f', 'o', 'o'], []⟩]]
        ['f', 'o', 'o'] true) [] = .error .emptyText :=
  (replace_empty_replacement_spec [Block.para [⟨['f', 'o', 'o'], []⟩]]
      ['f', 'o', 'o'] ['x'] true).1 (by decide)

end Synapse
